import Mathlib

/-!
Verification of the hyper adapter of the http-signatures crate
(`src/use_hyper_client.rs`).

The adapter turns a `hyper::Request` into the header map consumed by the
canonicalization core: it seeds a `BTreeMap` with the `(request-target)`
pseudo-header and folds every header view of the request into that map.
This development embeds the adapter faithfully and models the pieces the
adapter depends on — hyper's `Headers` container, and the
canonicalization/encoding core of the crate (`create.rs`, `prelude`,
`lib.rs`) which is not part of the adapter source — from their documented
behaviour.

Strings are compared in byte order throughout, as Rust's `Ord` on `String`
does; since UTF-8 is monotone in code points, code-point order on the
character list coincides with byte order, which is what `strLt` computes.
-/

variable {K : Type}

/-- Byte-order comparison of two character lists (code-point order, which
for UTF-8 encoded strings coincides with byte-lexicographic order, the
order used by Rust's `String: Ord` and hence by `BTreeMap<String, _>`). -/
def strLtChars : List Char → List Char → Bool
  | [], [] => false
  | [], _ :: _ => true
  | _ :: _, [] => false
  | a :: as, b :: bs =>
    if a < b then true
    else if b < a then false
    else strLtChars as bs

/-- Byte-order comparison of two strings, as Rust's `String: Ord`. -/
def strLt (a b : String) : Bool := strLtChars a.data b.data

/-- Rust's `str::to_lowercase` restricted to its ASCII action, which is all
that header names exercise.  Also models hyper's `UniCase` normalization. -/
def toLowercase (s : String) : String := ⟨s.data.map Char.toLower⟩

/-- Model of hyper 0.11's `Headers`: a case-insensitive, insertion-ordered
multimap from a stored header name to the raw value lines seen for it.
The container never holds two entries whose names agree up to ASCII case. -/
structure Headers where
  entries : List (String × List String)
deriving DecidableEq

/-- `hyper::Headers::new()`. -/
def Headers.empty : Headers := ⟨[]⟩

/-- Helper of `Headers.append_raw`: append a raw value line to the entry
whose stored name matches case-insensitively, creating the entry at the
end on first occurrence. -/
def appendRawAux : List (String × List String) → String → String → List (String × List String)
  | [], n, v => [(n, [v])]
  | (n', vs) :: rest, n, v =>
    if toLowercase n' = toLowercase n then (n', vs ++ [v]) :: rest
    else (n', vs) :: appendRawAux rest n v

/-- `hyper::Headers::append_raw`: add one raw header occurrence; a name that
matches an existing entry up to case is folded into that entry, preserving
the order of its value lines. -/
def Headers.append_raw (h : Headers) (n v : String) : Headers :=
  ⟨appendRawAux h.entries n v⟩

/-- Helper of `Headers.set_raw`: replace the value lines of the entry whose
stored name matches case-insensitively, creating the entry at the end when
absent. -/
def setRawAux : List (String × List String) → String → String → List (String × List String)
  | [], n, v => [(n, [v])]
  | (n', vs) :: rest, n, v =>
    if toLowercase n' = toLowercase n then (n', [v]) :: rest
    else (n', vs) :: setRawAux rest n v

/-- `hyper::Headers::set_raw` (also the effect of the typed `Headers::set`):
replace any existing header of that name, case-insensitively. -/
def Headers.set_raw (h : Headers) (n v : String) : Headers :=
  ⟨setRawAux h.entries n v⟩

/-- Helper of `Headers.get_raw`. -/
def getRawAux : List (String × List String) → String → Option (List String)
  | [], _ => none
  | (n', vs) :: rest, n =>
    if toLowercase n' = toLowercase n then some vs else getRawAux rest n

/-- `hyper::Headers::get_raw`: the raw value lines stored under a name,
looked up case-insensitively. -/
def Headers.get_raw (h : Headers) (n : String) : Option (List String) :=
  getRawAux h.entries n

/-- Iteration over hyper's `Headers`: one `HeaderView` per stored entry, in
insertion order.  `HeaderView::name()` is the stored name and
`HeaderView::value_string()` renders the entry, joining multiple raw value
lines with a comma and a space. -/
def Headers.views (h : Headers) : List (String × String) :=
  h.entries.map fun e => (e.1, String.intercalate ", " e.2)

/-- Model of `hyper::Request` as the message view the adapter consumes:
`method().as_ref()` (e.g. "POST"), `uri().path()`, `uri().query()`, the
body set by `set_body`, and the header container. -/
structure HyperRequest where
  method : String
  path : String
  query : Option String
  body : String
  headers : Headers
deriving DecidableEq

/-- Modelled from the spec: the digest sizes of the `ShaSize` enum declared
outside the adapter source (SHA-224/256/384/512). -/
inductive ShaSize
  | twoTwentyFour
  | twoFiftySix
  | threeEightyFour
  | fiveTwelve
deriving DecidableEq

/-- Modelled from the spec: the `SignatureAlgorithm` tagged variant declared
outside the adapter source, `{RSA, HMAC} × ShaSize`. -/
inductive SignatureAlgorithm
  | RSA (sha : ShaSize)
  | HMAC (sha : ShaSize)
deriving DecidableEq

/-- Modelled from the spec: the error taxonomy of `error.rs`, which is not
part of the adapter source (key, encoding, signing and conversion errors). -/
inductive Error
  | keyError
  | encodingError
  | signingError
  | conversionError
deriving DecidableEq

/-- Modelled from the spec: digest half of the lowercase dash-joined
algorithm name. -/
def sha_name : ShaSize → String
  | .twoTwentyFour => "sha224"
  | .twoFiftySix => "sha256"
  | .threeEightyFour => "sha384"
  | .fiveTwelve => "sha512"

/-- Modelled from the spec: the deterministic lowercase dash-joined
algorithm name used in the encoded header, e.g. "rsa-sha256". -/
def algorithm_name : SignatureAlgorithm → String
  | .RSA sha => "rsa-" ++ sha_name sha
  | .HMAC sha => "hmac-" ++ sha_name sha

/-- Modelled from the spec: the `REQUEST_TARGET` constant imported by the
adapter from the crate root, the literal pseudo-header name. -/
def REQUEST_TARGET : String := "(request-target)"

/-- The pseudo-header value built by `as_http_signature`:
`format!("{} {}?{}", method.to_lowercase(), path, query)` when the URI has
a query, `format!("{} {}", method.to_lowercase(), path)` otherwise. -/
def request_target_value (req : HyperRequest) : String :=
  match req.query with
  | some q => toLowercase req.method ++ " " ++ req.path ++ "?" ++ q
  | none => toLowercase req.method ++ " " ++ req.path

/-- `BTreeMap<String, Vec<String>>` represented as an association list kept
sorted in ascending byte order of the key.
`btreeInsertPush m k v` is `m.entry(k).or_insert_with(Vec::new).push(v)`. -/
def btreeInsertPush : List (String × List String) → String → String → List (String × List String)
  | [], k, v => [(k, [v])]
  | (k', vs) :: rest, k, v =>
    if strLt k k' then (k, [v]) :: (k', vs) :: rest
    else if k = k' then (k', vs ++ [v]) :: rest
    else (k', vs) :: btreeInsertPush rest k v

/-- The header map built by `AsHttpSignature::as_http_signature` for
`hyper::Request`: a `BTreeMap` seeded with the `(request-target)`
pseudo-header, into which every header view of the request is folded by
`acc.entry(name).or_insert_with(Vec::new).push(value_string)`. -/
def as_http_signature_headers (req : HyperRequest) : List (String × List String) :=
  req.headers.views.foldl (fun acc p => btreeInsertPush acc p.1 p.2)
    [(REQUEST_TARGET, [request_target_value req])]

/-- Modelled from the spec: the `HttpSignature` value of `create.rs`, which
is not part of the adapter source — key id, key handle, algorithm and the
canonical header map, constructed once per signing operation. -/
structure HttpSignature (K : Type) where
  key_id : String
  key : K
  algorithm : SignatureAlgorithm
  headers : List (String × List String)

/-- Modelled from the spec: `HttpSignature::new` of `create.rs`.  The spec
describes no failure at construction time other than non-UTF-8 header
values, which a Lean `String` cannot represent, so the constructor always
succeeds; the `Except` shape mirrors the fallible Rust signature. -/
def HttpSignature.new (key_id : String) (key : K) (algorithm : SignatureAlgorithm)
    (headers : List (String × List String)) : Except Error (HttpSignature K) :=
  .ok ⟨key_id, key, algorithm, headers⟩

/-- `AsHttpSignature::as_http_signature` for `hyper::Request`: build the
seeded header map and hand it to `HttpSignature::new`. -/
def as_http_signature (req : HyperRequest) (key_id : String) (key : K)
    (algorithm : SignatureAlgorithm) : Except Error (HttpSignature K) :=
  HttpSignature.new key_id key algorithm (as_http_signature_headers req)

/-- Order used to canonicalize: `a` precedes `b` when `b`'s name is not
byte-smaller than `a`'s, i.e. ascending byte order of the name. -/
def entryLe (a b : String × String) : Prop := strLt b.1 a.1 = false

instance : DecidableRel entryLe := fun _ _ => instDecidableEqBool _ _

/-- Modelled from the spec: the canonical line entries of the
`SigningString` conversion in `create.rs`, which is not part of the adapter
source.  Every header name is emitted lower-case, the raw values of an
entry are joined with a comma and a space, and the entries are sorted in
ascending byte order of the (lower-cased) name. -/
def canonical_entries (m : List (String × List String)) : List (String × String) :=
  List.insertionSort entryLe (m.map fun e => (toLowercase e.1, String.intercalate ", " e.2))

/-- Modelled from the spec: the lines of the signing string, one
`"name: value"` line per canonical entry. -/
def signing_lines (m : List (String × List String)) : List String :=
  (canonical_entries m).map fun e => e.1 ++ ": " ++ e.2

/-- Modelled from the spec: the signing string — the canonical lines joined
with a single newline and no trailing newline. -/
def signing_string_of (m : List (String × List String)) : String :=
  String.intercalate "\n" (signing_lines m)

/-- Modelled from the spec: the ordered list of covered header names,
exactly as their lines were emitted. -/
def signing_header_names (m : List (String × List String)) : List String :=
  (canonical_entries m).map (·.1)

/-- The base64 alphabet. -/
def base64Digit (n : Nat) : Char :=
  "ABCDEFGHIJKLMNOPQRSTUVWXYZabcdefghijklmnopqrstuvwxyz0123456789+/".data.getD n 'A'

/-- Modelled from the spec: standard base64 of a byte sequence, used to
encode the signature bytes into the header parameters. -/
def base64_encode : List Nat → String
  | [] => ""
  | [b1] => ⟨[base64Digit (b1 / 4), base64Digit (b1 % 4 * 16), '=', '=']⟩
  | [b1, b2] => ⟨[base64Digit (b1 / 4), base64Digit (b1 % 4 * 16 + b2 / 16),
      base64Digit (b2 % 16 * 4), '=']⟩
  | b1 :: b2 :: b3 :: rest =>
    (⟨[base64Digit (b1 / 4), base64Digit (b1 % 4 * 16 + b2 / 16),
      base64Digit (b2 % 16 * 4 + b3 / 64), base64Digit (b3 % 64)]⟩ : String) ++
      base64_encode rest

/-- Modelled from the spec: the `HttpSignatureParams` data — key id,
algorithm name, ordered header-name list and base64 signature. -/
structure HttpSignatureParams where
  key_id : String
  algorithm : String
  headers : List String
  signature : String
deriving DecidableEq

/-- Modelled from the spec: the encoded parameter string,
`keyId="…",algorithm="…",headers="…",signature="…"` with the header names
joined by single spaces in the exact order received. -/
def encode_params (p : HttpSignatureParams) : String :=
  "keyId=\"" ++ p.key_id ++ "\",algorithm=\"" ++ p.algorithm ++ "\",headers=\"" ++
    String.intercalate " " p.headers ++ "\",signature=\"" ++ p.signature ++ "\""

/-- Modelled from the spec: `produce_signature` — the pure part of the
prelude's provided signing methods, which are not part of the adapter
source.  It runs `as_http_signature`, derives the signing string, signs its
bytes with the engine `sign` (the external cryptographic primitive, a
stateless function of the string, the key and the algorithm), and packages
the parameters.  It fails exactly when the engine fails. -/
def produce_signature (sign : String → K → SignatureAlgorithm → Except Error (List Nat))
    (req : HyperRequest) (key_id : String) (key : K) (algorithm : SignatureAlgorithm) :
    Except Error HttpSignatureParams := do
  let hs ← as_http_signature req key_id key algorithm
  let sig_bytes ← sign (signing_string_of hs.headers) hs.key hs.algorithm
  pure ⟨hs.key_id, algorithm_name hs.algorithm, signing_header_names hs.headers,
    base64_encode sig_bytes⟩

/-- Modelled from the spec: the prelude's `signature_header` — the bare
header value, the parameter string verbatim. -/
def signature_header (sign : String → K → SignatureAlgorithm → Except Error (List Nat))
    (req : HyperRequest) (key_id : String) (key : K) (algorithm : SignatureAlgorithm) :
    Except Error String :=
  (produce_signature sign req key_id key algorithm).map encode_params

/-- Modelled from the spec: the prelude's `authorization_header` — the
scheme-wrapped value, the parameter string behind the "Signature " token. -/
def authorization_header (sign : String → K → SignatureAlgorithm → Except Error (List Nat))
    (req : HyperRequest) (key_id : String) (key : K) (algorithm : SignatureAlgorithm) :
    Except Error String :=
  (signature_header sign req key_id key algorithm).map fun s => "Signature " ++ s

/-- `WithHttpSignature::with_authorization_header` for `hyper::Request`, in
state-passing form: compute the authorization header value and, on success,
set it on the request (`headers_mut().set(Authorization(value))`); the `?`
on the computation returns the error with the request untouched.  The
returned request is the mutated `self` handed back for chaining. -/
def with_authorization_header (sign : String → K → SignatureAlgorithm → Except Error (List Nat))
    (req : HyperRequest) (key_id : String) (key : K) (algorithm : SignatureAlgorithm) :
    HyperRequest × Option Error :=
  match authorization_header sign req key_id key algorithm with
  | .error e => (req, some e)
  | .ok v => ({ req with headers := req.headers.set_raw "Authorization" v }, none)

/-- `WithHttpSignature::with_signature_header` for `hyper::Request`:
compute the bare signature header value and, on success, set it via
`headers_mut().set_raw("Signature", value)`. -/
def with_signature_header (sign : String → K → SignatureAlgorithm → Except Error (List Nat))
    (req : HyperRequest) (key_id : String) (key : K) (algorithm : SignatureAlgorithm) :
    HyperRequest × Option Error :=
  match signature_header sign req key_id key algorithm with
  | .error e => (req, some e)
  | .ok v => ({ req with headers := req.headers.set_raw "Signature" v }, none)

/-- The request of `min_test`: `POST http://example.org/foo` with no
headers. -/
def min_test_request : HyperRequest :=
  ⟨"POST", "/foo", none, "", Headers.empty⟩

/-- The request of `full_test`: `POST http://example.org/foo` with the
Host, Content-Type, Digest, Date and Content-Length headers and a JSON
body. -/
def full_test_request : HyperRequest :=
  ⟨"POST", "/foo", none, "\x7b\"hello\": \"world\"\x7d",
    ((((Headers.empty.set_raw "Host" "example.org").set_raw
      "Content-Type" "application/json").set_raw
      "Digest" "SHA-256=X48E9qOokqqrvdts8nOJRJN3OWDUoyWxBf7kbu9DBPE=").set_raw
      "Date" "Tue, 07 Jun 2014 20:51:35 GMT").set_raw "Content-Length" "18"⟩

theorem strLtChars_irrefl : ∀ l : List Char, strLtChars l l = false := by
  intro l
  induction l with
  | nil => rfl
  | cons a as ih => simp [strLtChars, ih]

theorem strLtChars_trans : ∀ {a b c : List Char}, strLtChars a b = true →
    strLtChars b c = true → strLtChars a c = true := by
  intro a
  induction a with
  | nil =>
    intro b c hab hbc
    cases b with
    | nil => exact absurd hab (by simp [strLtChars])
    | cons y ys =>
      cases c with
      | nil => exact absurd hbc (by simp [strLtChars])
      | cons z zs => simp [strLtChars]
  | cons x xs ih =>
    intro b c hab hbc
    cases b with
    | nil => exact absurd hab (by simp [strLtChars])
    | cons y ys =>
      cases c with
      | nil => exact absurd hbc (by simp [strLtChars])
      | cons z zs =>
        simp only [strLtChars] at hab hbc ⊢
        rcases lt_trichotomy x y with h1 | h1 | h1
        · rcases lt_trichotomy y z with h2 | h2 | h2
          · simp [lt_trans h1 h2]
          · subst h2
            simp [h1]
          · rw [if_neg (lt_asymm h2), if_pos h2] at hbc
            exact absurd hbc (by simp)
        · subst h1
          rw [if_neg (lt_irrefl x), if_neg (lt_irrefl x)] at hab
          rcases lt_trichotomy x z with h2 | h2 | h2
          · simp [h2]
          · subst h2
            rw [if_neg (lt_irrefl x), if_neg (lt_irrefl x)] at hbc ⊢
            exact ih hab hbc
          · rw [if_neg (lt_asymm h2), if_pos h2] at hbc
            exact absurd hbc (by simp)
        · rw [if_neg (lt_asymm h1), if_pos h1] at hab
          exact absurd hab (by simp)

theorem strLtChars_cotrans : ∀ {a : List Char} {c : List Char} (b : List Char),
    strLtChars a c = true → strLtChars a b = true ∨ strLtChars b c = true := by
  intro a
  induction a with
  | nil =>
    intro c b hac
    cases c with
    | nil => exact absurd hac (by simp [strLtChars])
    | cons z zs =>
      cases b with
      | nil => exact Or.inr (by simp [strLtChars])
      | cons y ys => exact Or.inl (by simp [strLtChars])
  | cons x xs ih =>
    intro c b hac
    cases c with
    | nil => exact absurd hac (by simp [strLtChars])
    | cons z zs =>
      cases b with
      | nil => exact Or.inr (by simp [strLtChars])
      | cons y ys =>
        simp only [strLtChars] at hac ⊢
        rcases lt_trichotomy x z with h1 | h1 | h1
        · rcases lt_trichotomy x y with h2 | h2 | h2
          · exact Or.inl (by simp [h2])
          · subst h2
            exact Or.inr (by simp [h1])
          · exact Or.inr (by simp [lt_trans h2 h1])
        · subst h1
          rw [if_neg (lt_irrefl x), if_neg (lt_irrefl x)] at hac
          rcases lt_trichotomy x y with h2 | h2 | h2
          · exact Or.inl (by simp [h2])
          · subst h2
            rcases ih ys hac with h | h
            · exact Or.inl (by simp [if_neg (lt_irrefl x), h])
            · exact Or.inr (by simp [if_neg (lt_irrefl x), h])
          · exact Or.inr (by simp [h2])
        · rw [if_neg (lt_asymm h1), if_pos h1] at hac
          exact absurd hac (by simp)

theorem strLtChars_eq_of_false : ∀ {a b : List Char}, strLtChars a b = false →
    strLtChars b a = false → a = b := by
  intro a
  induction a with
  | nil =>
    intro b hab _
    cases b with
    | nil => rfl
    | cons y ys => exact absurd hab (by simp [strLtChars])
  | cons x xs ih =>
    intro b hab hba
    cases b with
    | nil => exact absurd hba (by simp [strLtChars])
    | cons y ys =>
      simp only [strLtChars] at hab hba
      rcases lt_trichotomy x y with h1 | h1 | h1
      · rw [if_pos h1] at hab
        exact absurd hab (by simp)
      · subst h1
        rw [if_neg (lt_irrefl x), if_neg (lt_irrefl x)] at hab hba
        rw [ih hab hba]
      · rw [if_pos h1] at hba
        exact absurd hba (by simp)

theorem string_eq_of_data_eq : ∀ {a b : String}, a.data = b.data → a = b := by
  intro a b h
  cases a
  cases b
  exact congrArg String.mk h

theorem strLt_irrefl (a : String) : strLt a a = false := strLtChars_irrefl a.data

theorem strLt_trans {a b c : String} (hab : strLt a b = true) (hbc : strLt b c = true) :
    strLt a c = true := strLtChars_trans hab hbc

theorem strLt_asymm {a b : String} (hab : strLt a b = true) : strLt b a = false := by
  cases hba : strLt b a with
  | false => rfl
  | true => exact absurd (strLt_trans hab hba) (by simp [strLt_irrefl])

theorem strLt_cotrans {a c : String} (b : String) (hac : strLt a c = true) :
    strLt a b = true ∨ strLt b c = true := strLtChars_cotrans b.data hac

theorem strLt_eq_of_false {a b : String} (hab : strLt a b = false) (hba : strLt b a = false) :
    a = b := string_eq_of_data_eq (strLtChars_eq_of_false hab hba)

instance : IsTotal (String × String) entryLe where
  total a b := by
    cases h : strLt a.1 b.1 with
    | false => exact Or.inr h
    | true => exact Or.inl (strLt_asymm h)

instance : IsTrans (String × String) entryLe where
  trans a b c hab hbc := by
    cases h : strLt c.1 a.1 with
    | false => exact h
    | true =>
      rcases strLt_cotrans b.1 h with h' | h'
      · exact absurd h' (by simp [entryLe.eq_1 b c ▸ hbc])
      · exact absurd h' (by simp [entryLe.eq_1 a b ▸ hab])

theorem ne_of_lower_ne {a b : String} (h : toLowercase a ≠ toLowercase b) : a ≠ b :=
  fun he => h (he ▸ rfl)

theorem mem_btreeInsertPush {k v : String} {e : String × List String} :
    ∀ {m : List (String × List String)}, e ∈ btreeInsertPush m k v → e ∈ m ∨ e.1 = k := by
  intro m
  induction m with
  | nil =>
    intro h
    simp only [btreeInsertPush, List.mem_singleton] at h
    exact Or.inr (by rw [h])
  | cons hd tl ih =>
    obtain ⟨k', vs⟩ := hd
    intro h
    simp only [btreeInsertPush] at h
    by_cases hlt : strLt k k' = true
    · rw [if_pos hlt] at h
      rcases List.mem_cons.mp h with h1 | h1
      · exact Or.inr (by rw [h1])
      · exact Or.inl h1
    · by_cases heq : k = k'
      · rw [if_neg hlt, if_pos heq] at h
        rcases List.mem_cons.mp h with h1 | h1
        · exact Or.inr (by rw [h1, heq])
        · exact Or.inl (List.mem_cons_of_mem _ h1)
      · rw [if_neg hlt, if_neg heq] at h
        rcases List.mem_cons.mp h with h1 | h1
        · exact Or.inl (by rw [h1]; exact List.mem_cons_self _ _)
        · rcases ih h1 with h2 | h2
          · exact Or.inl (List.mem_cons_of_mem _ h2)
          · exact Or.inr h2

theorem btreeInsertPush_mem_of_ne {k v : String} {e : String × List String} :
    ∀ {m : List (String × List String)}, e ∈ m → e.1 ≠ k → e ∈ btreeInsertPush m k v := by
  intro m
  induction m with
  | nil => intro h _; cases h
  | cons hd tl ih =>
    obtain ⟨k', vs⟩ := hd
    intro h hne
    simp only [btreeInsertPush]
    by_cases hlt : strLt k k' = true
    · rw [if_pos hlt]
      exact List.mem_cons_of_mem _ h
    · by_cases heq : k = k'
      · rw [if_neg hlt, if_pos heq]
        rcases List.mem_cons.mp h with h1 | h1
        · exact absurd (by rw [h1, heq]) hne
        · exact List.mem_cons_of_mem _ h1
      · rw [if_neg hlt, if_neg heq]
        rcases List.mem_cons.mp h with h1 | h1
        · exact h1 ▸ List.mem_cons_self _ _
        · exact List.mem_cons_of_mem _ (ih h1 hne)

theorem btreeInsertPush_perm_fresh {k v : String} :
    ∀ {m : List (String × List String)}, (∀ e ∈ m, e.1 ≠ k) →
    (btreeInsertPush m k v).Perm ((k, [v]) :: m) := by
  intro m
  induction m with
  | nil => intro _; exact List.Perm.refl _
  | cons hd tl ih =>
    obtain ⟨k', vs⟩ := hd
    intro hfr
    simp only [btreeInsertPush]
    by_cases hlt : strLt k k' = true
    · rw [if_pos hlt]
    · by_cases heq : k = k'
      · exact absurd heq.symm (hfr (k', vs) (List.mem_cons_self _ _))
      · rw [if_neg hlt, if_neg heq]
        have h1 : (btreeInsertPush tl k v).Perm ((k, [v]) :: tl) :=
          ih fun e he => hfr e (List.mem_cons_of_mem _ he)
        exact (h1.cons (k', vs)).trans (List.Perm.swap _ _ _)

theorem fold_mem_btree {e : String × List String} :
    ∀ (vs : List (String × String)) (m : List (String × List String)),
    e ∈ vs.foldl (fun acc p => btreeInsertPush acc p.1 p.2) m →
    e ∈ m ∨ e.1 ∈ vs.map (·.1) := by
  intro vs
  induction vs with
  | nil => intro m h; exact Or.inl h
  | cons p ps ih =>
    intro m h
    rcases ih (btreeInsertPush m p.1 p.2) (by simpa using h) with h1 | h1
    · rcases mem_btreeInsertPush h1 with h2 | h2
      · exact Or.inl h2
      · exact Or.inr (by simp [h2])
    · exact Or.inr (by simp [h1])

theorem fold_keeps_unique_binding {k₀ : String} {vs₀ : List String} :
    ∀ (vs : List (String × String)) (m : List (String × List String)),
    (∀ p ∈ vs, p.1 ≠ k₀) → (k₀, vs₀) ∈ m → (∀ e ∈ m, e.1 = k₀ → e = (k₀, vs₀)) →
    (k₀, vs₀) ∈ vs.foldl (fun acc p => btreeInsertPush acc p.1 p.2) m ∧
      ∀ e ∈ vs.foldl (fun acc p => btreeInsertPush acc p.1 p.2) m, e.1 = k₀ → e = (k₀, vs₀) := by
  intro vs
  induction vs with
  | nil => intro m _ hmem huniq; exact ⟨hmem, huniq⟩
  | cons p ps ih =>
    intro m hvs hmem huniq
    have hpne : p.1 ≠ k₀ := hvs p (List.mem_cons_self _ _)
    have hmem' : (k₀, vs₀) ∈ btreeInsertPush m p.1 p.2 :=
      btreeInsertPush_mem_of_ne hmem fun hc => hpne hc.symm
    have huniq' : ∀ e ∈ btreeInsertPush m p.1 p.2, e.1 = k₀ → e = (k₀, vs₀) := by
      intro e he hek
      rcases mem_btreeInsertPush he with h1 | h1
      · exact huniq e h1 hek
      · exact absurd (h1 ▸ hek) hpne
    simpa using ih (btreeInsertPush m p.1 p.2)
      (fun q hq => hvs q (List.mem_cons_of_mem _ hq)) hmem' huniq'

theorem fold_fresh_perm :
    ∀ (vs : List (String × String)) (m : List (String × List String)),
    (∀ p ∈ vs, ∀ e ∈ m, toLowercase p.1 ≠ toLowercase e.1) →
    ((vs.map fun p => toLowercase p.1).Nodup) →
    (vs.foldl (fun acc p => btreeInsertPush acc p.1 p.2) m).Perm
      ((vs.map fun p => (p.1, [p.2])) ++ m) := by
  intro vs
  induction vs with
  | nil => intro m _ _; exact List.Perm.refl _
  | cons p ps ih =>
    intro m hfr hnd
    have hfr1 : ∀ e ∈ m, e.1 ≠ p.1 := by
      intro e he hc
      exact hfr p (List.mem_cons_self _ _) e he (by rw [hc])
    have hperm1 : (btreeInsertPush m p.1 p.2).Perm ((p.1, [p.2]) :: m) :=
      btreeInsertPush_perm_fresh hfr1
    have hnd' : (toLowercase p.1 :: ps.map fun q => toLowercase q.1).Nodup := by
      simpa only [List.map_cons] using hnd
    have hnd1 : toLowercase p.1 ∉ ps.map fun q => toLowercase q.1 :=
      (List.nodup_cons.mp hnd').1
    have hfr2 : ∀ q ∈ ps, ∀ e ∈ btreeInsertPush m p.1 p.2,
        toLowercase q.1 ≠ toLowercase e.1 := by
      intro q hq e he hc
      rcases List.mem_cons.mp (hperm1.mem_iff.mp he) with h1 | h1
      · have hcc : toLowercase q.1 = toLowercase p.1 := by rw [hc, h1]
        exact hnd1 (hcc ▸ List.mem_map_of_mem (fun r => toLowercase r.1) hq)
      · exact hfr q (List.mem_cons_of_mem _ hq) e h1 hc
    have ihp := ih (btreeInsertPush m p.1 p.2) hfr2 (List.nodup_cons.mp hnd').2
    have step1 : ((ps.map fun q => (q.1, [q.2])) ++ btreeInsertPush m p.1 p.2).Perm
        ((ps.map fun q => (q.1, [q.2])) ++ ((p.1, [p.2]) :: m)) :=
      List.Perm.append_left _ hperm1
    have step2 : ((ps.map fun q => (q.1, [q.2])) ++ ((p.1, [p.2]) :: m)).Perm
        ((p.1, [p.2]) :: ((ps.map fun q => (q.1, [q.2])) ++ m)) := List.perm_middle
    simpa using (ihp.trans step1).trans step2

theorem canonical_sorted (m : List (String × List String)) :
    List.Sorted entryLe (canonical_entries m) :=
  List.sorted_insertionSort entryLe _

theorem canonical_perm (m : List (String × List String)) :
    (canonical_entries m).Perm
      (m.map fun e => (toLowercase e.1, String.intercalate ", " e.2)) :=
  List.perm_insertionSort entryLe _

theorem sorted_head_of_min {L : List (String × String)} {p : String × String}
    (hs : List.Sorted entryLe L) (hp : p ∈ L)
    (hmin : ∀ e ∈ L, e = p ∨ strLt p.1 e.1 = true) : ∃ t, L = p :: t := by
  cases L with
  | nil => cases hp
  | cons h t =>
    rcases List.mem_cons.mp hp with h1 | h1
    · exact ⟨t, by rw [h1]⟩
    · rcases hmin h (List.mem_cons_self h t) with h2 | h2
      · exact ⟨t, by rw [h2]⟩
      · have hle : strLt p.1 h.1 = false := (List.pairwise_cons.mp hs).1 p h1
        rw [h2] at hle
        cases hle

theorem intercalate_singleton (s x : String) : String.intercalate s [x] = x := rfl

theorem intercalate_pair (s x y : String) : String.intercalate s [x, y] = x ++ s ++ y := rfl

theorem toLowercase_request_target : toLowercase REQUEST_TARGET = REQUEST_TARGET := by decide

set_option maxRecDepth 16384 in
/-- C5: on the two requests of the test suite the adapter produces exactly the
signing strings asserted by `full_test` and `min_test`. -/
theorem full_test_signing_string :
    signing_string_of (as_http_signature_headers full_test_request) =
      "(request-target): post /foo\ncontent-length: 18\ncontent-type: application/json\ndate: Tue, 07 Jun 2014 20:51:35 GMT\ndigest: SHA-256=X48E9qOokqqrvdts8nOJRJN3OWDUoyWxBf7kbu9DBPE=\nhost: example.org" ∧
    signing_string_of (as_http_signature_headers min_test_request) =
      "(request-target): post /foo" :=
  ⟨by decide, by decide⟩

/-- C9: a request carrying a real header literally named "(request-target)" has
that header's value pushed onto the same map entry as the computed
request-target pseudo-header value, after it, rather than being rejected or
kept distinct; the entry's line joins both with a comma and a space. -/
theorem literal_request_target_header_merged (m p b v : String) (q : Option String) :
    as_http_signature_headers ⟨m, p, q, b, ⟨[("(request-target)", [v])]⟩⟩ =
      [(REQUEST_TARGET,
        [request_target_value ⟨m, p, q, b, ⟨[("(request-target)", [v])]⟩⟩, v])] ∧
    signing_lines (as_http_signature_headers ⟨m, p, q, b, ⟨[("(request-target)", [v])]⟩⟩) =
      ["(request-target): " ++
        (request_target_value ⟨m, p, q, b, ⟨[("(request-target)", [v])]⟩⟩ ++ ", " ++ v)] := by
  have hfalse : strLt "(request-target)" "(request-target)" = false := strLt_irrefl _
  have hmap : as_http_signature_headers ⟨m, p, q, b, ⟨[("(request-target)", [v])]⟩⟩ =
      [(REQUEST_TARGET,
        [request_target_value ⟨m, p, q, b, ⟨[("(request-target)", [v])]⟩⟩, v])] := by
    simp only [as_http_signature_headers, Headers.views, List.map_cons, List.map_nil,
      List.foldl_cons, List.foldl_nil, intercalate_singleton, btreeInsertPush,
      REQUEST_TARGET, hfalse]
    simp
  refine ⟨hmap, ?_⟩
  rw [signing_lines, hmap]
  simp only [canonical_entries, List.map_cons, List.map_nil, toLowercase_request_target,
    intercalate_pair, List.insertionSort, List.orderedInsert]
  rfl

/-- C1 (amended): provided every real header name of the request lower-cases to
a string byte-greater than "(request-target)" — true of every name that starts
with a letter or a digit — the signing string's first line is the
request-target pseudo-header line, whose value is the lower-cased method, a
space, the path, and "?" plus the query exactly when the URI has one; a
request with no headers yields exactly that one line. -/
theorem signing_string_first_line (req : HyperRequest)
    (hgt : ∀ p ∈ req.headers.views, strLt REQUEST_TARGET (toLowercase p.1) = true) :
    (∃ rest, signing_lines (as_http_signature_headers req) =
        ("(request-target): " ++ request_target_value req) :: rest ∧
      signing_string_of (as_http_signature_headers req) = String.intercalate "\n"
        (("(request-target): " ++ request_target_value req) :: rest)) ∧
    (req.headers.entries = [] →
      signing_string_of (as_http_signature_headers req) =
        "(request-target): " ++ request_target_value req) ∧
    (∀ qs, req.query = some qs →
      request_target_value req = toLowercase req.method ++ " " ++ req.path ++ "?" ++ qs) ∧
    (req.query = none →
      request_target_value req = toLowercase req.method ++ " " ++ req.path) := by
  refine ⟨?_, ?_, ?_, ?_⟩
  · have hpne : ∀ p ∈ req.headers.views, p.1 ≠ REQUEST_TARGET := by
      intro p hp hc
      have hh := hgt p hp
      rw [hc, toLowercase_request_target, strLt_irrefl] at hh
      cases hh
    have hub := fold_keeps_unique_binding req.headers.views
      [(REQUEST_TARGET, [request_target_value req])] hpne (List.mem_singleton.mpr rfl)
      (fun e he _ => List.mem_singleton.mp he)
    obtain ⟨hmem, huniq⟩ := hub
    have hpc : (REQUEST_TARGET, request_target_value req) ∈
        canonical_entries (as_http_signature_headers req) := by
      refine (canonical_perm _).mem_iff.mpr ?_
      have h2 := List.mem_map_of_mem
        (fun e => (toLowercase e.1, String.intercalate ", " e.2)) hmem
      simpa [toLowercase_request_target, intercalate_singleton] using h2
    have hmin : ∀ e ∈ canonical_entries (as_http_signature_headers req),
        e = (REQUEST_TARGET, request_target_value req) ∨
          strLt (REQUEST_TARGET, request_target_value req).1 e.1 = true := by
      intro e he
      rcases List.mem_map.mp ((canonical_perm _).mem_iff.mp he) with ⟨e₀, he₀, hfe⟩
      by_cases hk : e₀.1 = REQUEST_TARGET
      · left
        have he₀' := huniq e₀ he₀ hk
        rw [he₀'] at hfe
        rw [← hfe]
        simp [toLowercase_request_target, intercalate_singleton]
      · right
        rcases fold_mem_btree req.headers.views _ he₀ with h1 | h1
        · exact absurd (congrArg Prod.fst (List.mem_singleton.mp h1)) hk
        · rcases List.mem_map.mp h1 with ⟨p, hp, hp1⟩
          have hh := hgt p hp
          rw [hp1] at hh
          rw [← hfe]
          simpa using hh
    obtain ⟨t, ht⟩ := sorted_head_of_min (canonical_sorted _) hpc hmin
    refine ⟨t.map fun e => e.1 ++ ": " ++ e.2, ?_, ?_⟩
    · rw [signing_lines, ht]
      rfl
    · rw [signing_string_of, signing_lines, ht]
      rfl
  · intro h
    have hv : req.headers.views = [] := by simp [Headers.views, h]
    rw [signing_string_of, signing_lines, canonical_entries, as_http_signature_headers, hv]
    rfl
  · intro qs hq
    simp [request_target_value, hq]
  · intro hq
    simp [request_target_value, hq]

theorem signing_string_first_line_witness :
    (∀ p ∈ (HyperRequest.mk "GET" "/x" (some "a=b") ""
        ⟨[("Accept", ["text/html"])]⟩).headers.views,
      strLt REQUEST_TARGET (toLowercase p.1) = true) ∧
    ((∃ rest, signing_lines (as_http_signature_headers
        (HyperRequest.mk "GET" "/x" (some "a=b") "" ⟨[("Accept", ["text/html"])]⟩)) =
        ("(request-target): " ++ request_target_value
          (HyperRequest.mk "GET" "/x" (some "a=b") "" ⟨[("Accept", ["text/html"])]⟩)) :: rest ∧
      signing_string_of (as_http_signature_headers
        (HyperRequest.mk "GET" "/x" (some "a=b") "" ⟨[("Accept", ["text/html"])]⟩)) =
        String.intercalate "\n" (("(request-target): " ++ request_target_value
          (HyperRequest.mk "GET" "/x" (some "a=b") "" ⟨[("Accept", ["text/html"])]⟩)) :: rest)) ∧
      ((HyperRequest.mk "GET" "/x" (some "a=b") ""
          ⟨[("Accept", ["text/html"])]⟩).headers.entries = [] →
        signing_string_of (as_http_signature_headers
          (HyperRequest.mk "GET" "/x" (some "a=b") "" ⟨[("Accept", ["text/html"])]⟩)) =
          "(request-target): " ++ request_target_value
            (HyperRequest.mk "GET" "/x" (some "a=b") "" ⟨[("Accept", ["text/html"])]⟩)) ∧
      (∀ qs, (HyperRequest.mk "GET" "/x" (some "a=b") ""
          ⟨[("Accept", ["text/html"])]⟩).query = some qs →
        request_target_value (HyperRequest.mk "GET" "/x" (some "a=b") ""
          ⟨[("Accept", ["text/html"])]⟩) = toLowercase "GET" ++ " " ++ "/x" ++ "?" ++ qs) ∧
      ((HyperRequest.mk "GET" "/x" (some "a=b") ""
          ⟨[("Accept", ["text/html"])]⟩).query = none →
        request_target_value (HyperRequest.mk "GET" "/x" (some "a=b") ""
          ⟨[("Accept", ["text/html"])]⟩) = toLowercase "GET" ++ " " ++ "/x")) :=
  ⟨by decide, signing_string_first_line _ (by decide)⟩

/-- C1 counterexample: a request carrying the valid HTTP header name "!x"
(whose first byte is below "(") makes the signing string begin with the "!x"
line, not with the request-target pseudo-header line. -/
theorem signing_string_first_line_counterexample :
    signing_lines (as_http_signature_headers
      (HyperRequest.mk "POST" "/foo" none "" ⟨[("!x", ["v"])]⟩)) =
      ["!x: v", "(request-target): post /foo"] ∧
    signing_string_of (as_http_signature_headers
      (HyperRequest.mk "POST" "/foo" none "" ⟨[("!x", ["v"])]⟩)) =
      "!x: v\n(request-target): post /foo" ∧
    ¬ ∃ rest, signing_lines (as_http_signature_headers
        (HyperRequest.mk "POST" "/foo" none "" ⟨[("!x", ["v"])]⟩)) =
        ("(request-target): " ++ request_target_value
          (HyperRequest.mk "POST" "/foo" none "" ⟨[("!x", ["v"])]⟩)) :: rest := by
  refine ⟨by decide, by decide, ?_⟩
  rintro ⟨rest, hr⟩
  have hv : signing_lines (as_http_signature_headers
      (HyperRequest.mk "POST" "/foo" none "" ⟨[("!x", ["v"])]⟩)) =
      ["!x: v", "(request-target): post /foo"] := by decide
  rw [hv] at hr
  injection hr with h1 _
  have : ("!x: v" : String) ≠ "(request-target): " ++ request_target_value
      (HyperRequest.mk "POST" "/foo" none "" ⟨[("!x", ["v"])]⟩) := by decide
  exact this h1

/-- C2 (amended): provided the lower-cased header names of the request are
pairwise distinct — hyper's `Headers` container guarantees this, since it
merges names case-insensitively — and each is byte-greater than
"(request-target)" (true of every name starting with a letter or a digit),
the emitted header names are in strictly ascending byte order with the
pseudo-header first. -/
theorem canonical_order_sorted (req : HyperRequest)
    (hnd : (req.headers.entries.map fun e => toLowercase e.1).Nodup)
    (hgt : ∀ p ∈ req.headers.views, strLt REQUEST_TARGET (toLowercase p.1) = true) :
    List.Chain' (fun a b => strLt a b = true)
      (signing_header_names (as_http_signature_headers req)) ∧
    (signing_header_names (as_http_signature_headers req)).head? = some REQUEST_TARGET := by
  have hvnd : (req.headers.views.map fun p => toLowercase p.1).Nodup := by
    simpa [Headers.views, List.map_map, Function.comp] using hnd
  have hfr : ∀ p ∈ req.headers.views,
      ∀ e ∈ [(REQUEST_TARGET, [request_target_value req])],
      toLowercase p.1 ≠ toLowercase e.1 := by
    intro p hp e he hc
    rw [List.mem_singleton.mp he] at hc
    have hh := hgt p hp
    rw [hc] at hh
    simp [toLowercase_request_target, strLt_irrefl] at hh
  have hperm : (as_http_signature_headers req).Perm
      ((req.headers.views.map fun p => (p.1, [p.2])) ++
        [(REQUEST_TARGET, [request_target_value req])]) :=
    fold_fresh_perm req.headers.views _ hfr hvnd
  have hpermf := hperm.map fun e => (toLowercase e.1, String.intercalate ", " e.2)
  rw [List.map_append] at hpermf
  have hps : (([(REQUEST_TARGET, [request_target_value req])]).map
      fun e => (toLowercase e.1, String.intercalate ", " e.2)) =
      [(REQUEST_TARGET, request_target_value req)] := by
    simp [toLowercase_request_target, intercalate_singleton]
  rw [hps, List.map_map] at hpermf
  have hcanon := (canonical_perm (as_http_signature_headers req)).trans hpermf
  have hkeys := hcanon.map Prod.fst
  rw [List.map_append, List.map_map] at hkeys
  simp only [List.map_cons, List.map_nil] at hkeys
  have hrnd : ((req.headers.views.map (Prod.fst ∘
      ((fun e : String × List String => (toLowercase e.1, String.intercalate ", " e.2)) ∘
        fun p : String × String => (p.1, [p.2])))) ++ [REQUEST_TARGET]).Nodup := by
    rw [List.nodup_append]
    refine ⟨hvnd, List.nodup_singleton _, ?_⟩
    intro x hx hx2
    rcases List.mem_map.mp hx with ⟨p, hp, hfx⟩
    rw [List.mem_singleton.mp hx2] at hfx
    have hh := hgt p hp
    rw [show toLowercase p.1 = REQUEST_TARGET from hfx] at hh
    rw [strLt_irrefl] at hh
    cases hh
  have hknd : ((canonical_entries (as_http_signature_headers req)).map Prod.fst).Nodup :=
    hkeys.nodup_iff.mpr hrnd
  have hple : List.Pairwise entryLe (canonical_entries (as_http_signature_headers req)) :=
    canonical_sorted _
  have hpne : List.Pairwise (fun a b : String × String => a.1 ≠ b.1)
      (canonical_entries (as_http_signature_headers req)) := List.pairwise_map.mp hknd
  have hplt : List.Pairwise (fun a b : String × String => strLt a.1 b.1 = true)
      (canonical_entries (as_http_signature_headers req)) := by
    refine (hple.and hpne).imp ?_
    rintro a b ⟨h1, h2⟩
    cases hab : strLt a.1 b.1 with
    | true => rfl
    | false => exact absurd (strLt_eq_of_false hab h1) h2
  have hpc : (REQUEST_TARGET, request_target_value req) ∈
      canonical_entries (as_http_signature_headers req) :=
    hcanon.mem_iff.mpr (List.mem_append_right _ (List.mem_singleton.mpr rfl))
  have hmin : ∀ e ∈ canonical_entries (as_http_signature_headers req),
      e = (REQUEST_TARGET, request_target_value req) ∨
        strLt (REQUEST_TARGET, request_target_value req).1 e.1 = true := by
    intro e he
    rcases List.mem_append.mp (hcanon.mem_iff.mp he) with h1 | h1
    · right
      rcases List.mem_map.mp h1 with ⟨p0, hp0, hfe⟩
      rw [← hfe]
      simpa using hgt p0 hp0
    · exact Or.inl (List.mem_singleton.mp h1)
  obtain ⟨t, ht⟩ := sorted_head_of_min (canonical_sorted _) hpc hmin
  constructor
  · exact (List.pairwise_map.mpr hplt).chain'
  · rw [signing_header_names, ht]
    rfl

theorem canonical_order_sorted_witness :
    ((HyperRequest.mk "GET" "/x" none "" ⟨[("B", ["1"]), ("A", ["2"])]⟩).headers.entries.map
      fun e => toLowercase e.1).Nodup ∧
    (∀ p ∈ (HyperRequest.mk "GET" "/x" none ""
        ⟨[("B", ["1"]), ("A", ["2"])]⟩).headers.views,
      strLt REQUEST_TARGET (toLowercase p.1) = true) ∧
    (List.Chain' (fun a b => strLt a b = true)
      (signing_header_names (as_http_signature_headers
        (HyperRequest.mk "GET" "/x" none "" ⟨[("B", ["1"]), ("A", ["2"])]⟩))) ∧
    (signing_header_names (as_http_signature_headers
      (HyperRequest.mk "GET" "/x" none "" ⟨[("B", ["1"]), ("A", ["2"])]⟩))).head? =
      some REQUEST_TARGET) :=
  ⟨by decide, by decide, canonical_order_sorted _ (by decide) (by decide)⟩

/-- C2 counterexample: the valid HTTP header name "$y" (first byte below "(")
sorts before the pseudo-header, so the "(request-target)" line is not first. -/
theorem canonical_order_counterexample :
    signing_header_names (as_http_signature_headers
      (HyperRequest.mk "POST" "/foo" none "" ⟨[("$y", ["v"])]⟩)) =
      ["$y", REQUEST_TARGET] ∧
    ¬ (signing_header_names (as_http_signature_headers
      (HyperRequest.mk "POST" "/foo" none "" ⟨[("$y", ["v"])]⟩))).head? =
      some REQUEST_TARGET :=
  ⟨by decide, by decide⟩

theorem single_entry_map_perm (req : HyperRequest) (n : String) (vs : List String)
    (hent : req.headers.entries = [(n, vs)]) (hne : n ≠ REQUEST_TARGET) :
    (canonical_entries (as_http_signature_headers req)).Perm
      [(toLowercase n, String.intercalate ", " vs),
        (REQUEST_TARGET, request_target_value req)] := by
  have hv : req.headers.views = [(n, String.intercalate ", " vs)] := by
    simp [Headers.views, hent]
  have hR : as_http_signature_headers req =
      btreeInsertPush [(REQUEST_TARGET, [request_target_value req])] n
        (String.intercalate ", " vs) := by
    rw [as_http_signature_headers, hv]
    rfl
  by_cases hlt : strLt n REQUEST_TARGET = true
  · have hR2 : as_http_signature_headers req =
        [(n, [String.intercalate ", " vs]), (REQUEST_TARGET, [request_target_value req])] := by
      rw [hR]
      simp only [btreeInsertPush]
      rw [if_pos hlt]
    refine (canonical_perm _).trans ?_
    rw [hR2]
    simp only [List.map_cons, List.map_nil, intercalate_singleton, toLowercase_request_target]
    exact List.Perm.refl _
  · have hR2 : as_http_signature_headers req =
        [(REQUEST_TARGET, [request_target_value req]), (n, [String.intercalate ", " vs])] := by
      rw [hR]
      simp only [btreeInsertPush]
      rw [if_neg hlt, if_neg hne]
    refine (canonical_perm _).trans ?_
    rw [hR2]
    simp only [List.map_cons, List.map_nil, intercalate_singleton, toLowercase_request_target]
    exact List.Perm.swap _ _ _

/-- C3: two raw header occurrences whose names differ only in letter case are
merged by the pipeline into a single canonical entry, whose name is emitted
lower-case and whose joined value keeps both values in their order of
appearance. -/
theorem case_variant_headers_merged (m p b n1 n2 a c : String) (q : Option String)
    (hcase : toLowercase n1 = toLowercase n2) (hne : toLowercase n1 ≠ REQUEST_TARGET) :
    ((Headers.empty.append_raw n1 a).append_raw n2 c).entries = [(n1, [a, c])] ∧
    (canonical_entries (as_http_signature_headers
        ⟨m, p, q, b, (Headers.empty.append_raw n1 a).append_raw n2 c⟩)).filter
        (fun e => e.1 == toLowercase n1) = [(toLowercase n1, a ++ ", " ++ c)] ∧
    (toLowercase n1 ++ ": " ++ (a ++ ", " ++ c)) ∈ signing_lines
      (as_http_signature_headers
        ⟨m, p, q, b, (Headers.empty.append_raw n1 a).append_raw n2 c⟩) := by
  have hn1 : n1 ≠ REQUEST_TARGET := fun hc => hne (by rw [hc, toLowercase_request_target])
  have hent : ((Headers.empty.append_raw n1 a).append_raw n2 c).entries = [(n1, [a, c])] := by
    simp [Headers.empty, Headers.append_raw, appendRawAux, hcase]
  have hperm := single_entry_map_perm
    ⟨m, p, q, b, (Headers.empty.append_raw n1 a).append_raw n2 c⟩ n1 [a, c] hent hn1
  rw [intercalate_pair] at hperm
  refine ⟨hent, ?_, ?_⟩
  · have hf := hperm.filter fun e => e.1 == toLowercase n1
    have hfr : List.filter (fun e => e.1 == toLowercase n1)
        [(toLowercase n1, a ++ ", " ++ c),
          (REQUEST_TARGET, request_target_value
            ⟨m, p, q, b, (Headers.empty.append_raw n1 a).append_raw n2 c⟩)] =
        [(toLowercase n1, a ++ ", " ++ c)] := by
      rw [List.filter_cons, List.filter_cons, List.filter_nil]
      rw [if_pos (by simp), if_neg (by simp only [beq_iff_eq]; exact fun hh => hne hh.symm)]
    rw [hfr] at hf
    exact List.perm_singleton.mp hf
  · rw [signing_lines]
    exact List.mem_map_of_mem _ (hperm.mem_iff.mpr (List.mem_cons_self _ _))

theorem case_variant_headers_merged_witness :
    (toLowercase "Content-Type" = toLowercase "content-type") ∧
    (toLowercase "Content-Type" ≠ REQUEST_TARGET) ∧
    (((Headers.empty.append_raw "Content-Type" "application/json").append_raw
        "content-type" "text/html").entries = [("Content-Type", ["application/json", "text/html"])] ∧
    (canonical_entries (as_http_signature_headers
        ⟨"POST", "/foo", none, "", (Headers.empty.append_raw "Content-Type"
          "application/json").append_raw "content-type" "text/html"⟩)).filter
        (fun e => e.1 == toLowercase "Content-Type") =
        [(toLowercase "Content-Type", "application/json" ++ ", " ++ "text/html")] ∧
    (toLowercase "Content-Type" ++ ": " ++ ("application/json" ++ ", " ++ "text/html")) ∈
      signing_lines (as_http_signature_headers
        ⟨"POST", "/foo", none, "", (Headers.empty.append_raw "Content-Type"
          "application/json").append_raw "content-type" "text/html"⟩)) :=
  ⟨by decide, by decide, case_variant_headers_merged "POST" "/foo" "" "Content-Type"
    "content-type" "application/json" "text/html" none (by decide) (by decide)⟩

theorem appendRaw_fold_same_name (n₀ : String) :
    ∀ (ps : List (String × String)) (vs : List String),
    (∀ pr ∈ ps, toLowercase pr.1 = toLowercase n₀) →
    (ps.foldl (fun h pr => h.append_raw pr.1 pr.2) (Headers.mk [(n₀, vs)])).entries =
      [(n₀, vs ++ ps.map (·.2))] := by
  intro ps
  induction ps with
  | nil =>
    intro vs _
    simp
  | cons pr prs ih =>
    intro vs hall
    have h1 : (Headers.mk [(n₀, vs)]).append_raw pr.1 pr.2 = ⟨[(n₀, vs ++ [pr.2])]⟩ := by
      simp [Headers.append_raw, appendRawAux, (hall pr (List.mem_cons_self _ _)).symm]
    rw [List.foldl_cons, h1, ih (vs ++ [pr.2]) fun r hr => hall r (List.mem_cons_of_mem _ hr)]
    simp

/-- C4: a run of raw header occurrences sharing one normalized name is folded
into a single entry whose value is the ordered, comma-and-space join of all
the raw values in their order of appearance. -/
theorem duplicate_values_joined_in_order (m p b n₀ v₀ : String) (q : Option String)
    (ps : List (String × String))
    (hall : ∀ pr ∈ ps, toLowercase pr.1 = toLowercase n₀)
    (hne : toLowercase n₀ ≠ REQUEST_TARGET) :
    (ps.foldl (fun h pr => h.append_raw pr.1 pr.2) (Headers.empty.append_raw n₀ v₀)).entries =
      [(n₀, v₀ :: ps.map (·.2))] ∧
    (toLowercase n₀ ++ ": " ++ String.intercalate ", " (v₀ :: ps.map (·.2))) ∈
      signing_lines (as_http_signature_headers ⟨m, p, q, b,
        ps.foldl (fun h pr => h.append_raw pr.1 pr.2) (Headers.empty.append_raw n₀ v₀)⟩) := by
  have hent : (ps.foldl (fun h pr => h.append_raw pr.1 pr.2)
      (Headers.empty.append_raw n₀ v₀)).entries = [(n₀, v₀ :: ps.map (·.2))] := by
    have h0 : Headers.empty.append_raw n₀ v₀ = ⟨[(n₀, [v₀])]⟩ := rfl
    rw [h0, appendRaw_fold_same_name n₀ ps [v₀] hall]
    simp
  have hn : n₀ ≠ REQUEST_TARGET := fun hc => hne (by rw [hc, toLowercase_request_target])
  have hperm := single_entry_map_perm ⟨m, p, q, b,
      ps.foldl (fun h pr => h.append_raw pr.1 pr.2) (Headers.empty.append_raw n₀ v₀)⟩
    n₀ (v₀ :: ps.map (·.2)) hent hn
  refine ⟨hent, ?_⟩
  rw [signing_lines]
  exact List.mem_map_of_mem _ (hperm.mem_iff.mpr (List.mem_cons_self _ _))

theorem duplicate_values_joined_in_order_witness :
    (∀ pr ∈ [(("accept" : String), ("text/html" : String))],
      toLowercase pr.1 = toLowercase "Accept") ∧
    (toLowercase "Accept" ≠ REQUEST_TARGET) ∧
    (([(("accept" : String), ("text/html" : String))].foldl
        (fun h pr => h.append_raw pr.1 pr.2)
        (Headers.empty.append_raw "Accept" "application/json")).entries =
      [("Accept", ["application/json", "text/html"])] ∧
    (toLowercase "Accept" ++ ": " ++
        String.intercalate ", " ["application/json", "text/html"]) ∈
      signing_lines (as_http_signature_headers ⟨"POST", "/foo", none, "",
        [(("accept" : String), ("text/html" : String))].foldl
          (fun h pr => h.append_raw pr.1 pr.2)
          (Headers.empty.append_raw "Accept" "application/json")⟩)) :=
  ⟨by decide, by decide, duplicate_values_joined_in_order "POST" "/foo" "" "Accept"
    "application/json" none [("accept", "text/html")] (by decide) (by decide)⟩

theorem getRaw_setRaw_same :
    ∀ (l : List (String × List String)) (n n' v : String),
    toLowercase n' = toLowercase n → getRawAux (setRawAux l n v) n' = some [v] := by
  intro l
  induction l with
  | nil =>
    intro n n' v h
    simp only [setRawAux, getRawAux]
    rw [if_pos h.symm]
  | cons hd tl ih =>
    obtain ⟨m₀, vs⟩ := hd
    intro n n' v h
    by_cases hc : toLowercase m₀ = toLowercase n
    · simp only [setRawAux]
      rw [if_pos hc]
      simp only [getRawAux]
      rw [if_pos (hc.trans h.symm)]
    · simp only [setRawAux]
      rw [if_neg hc]
      simp only [getRawAux]
      rw [if_neg fun hcc => hc (hcc.trans h)]
      exact ih n n' v h

theorem getRaw_setRaw_other :
    ∀ (l : List (String × List String)) (n n' v : String),
    toLowercase n' ≠ toLowercase n →
    getRawAux (setRawAux l n v) n' = getRawAux l n' := by
  intro l
  induction l with
  | nil =>
    intro n n' v h
    simp only [setRawAux, getRawAux]
    rw [if_neg fun hc => h hc.symm]
  | cons hd tl ih =>
    obtain ⟨m₀, vs⟩ := hd
    intro n n' v h
    by_cases hc : toLowercase m₀ = toLowercase n
    · simp only [setRawAux]
      rw [if_pos hc]
      simp only [getRawAux]
      rw [if_neg fun hcc => h (hcc.symm.trans hc), if_neg fun hcc => h (hcc.symm.trans hc)]
    · simp only [setRawAux]
      rw [if_neg hc]
      simp only [getRawAux]
      by_cases hcc : toLowercase m₀ = toLowercase n'
      · rw [if_pos hcc, if_pos hcc]
      · rw [if_neg hcc, if_neg hcc]
        exact ih n n' v h

/-- C6: when the underlying signature engine fails, both attachment methods
propagate exactly that error and return the request unmodified: no header is
added or changed. -/
theorem failed_signing_leaves_request_unchanged
    (sign : String → K → SignatureAlgorithm → Except Error (List Nat))
    (req : HyperRequest) (key_id : String) (key : K) (algorithm : SignatureAlgorithm)
    (e : Error)
    (hfail : sign (signing_string_of (as_http_signature_headers req)) key algorithm =
      Except.error e) :
    with_authorization_header sign req key_id key algorithm = (req, some e) ∧
    with_signature_header sign req key_id key algorithm = (req, some e) := by
  have hp : produce_signature sign req key_id key algorithm = Except.error e := by
    show Except.map _
      (sign (signing_string_of (as_http_signature_headers req)) key algorithm) =
      Except.error e
    rw [hfail]
    rfl
  constructor
  · simp [with_authorization_header, authorization_header, signature_header, hp, Except.map]
  · simp [with_signature_header, signature_header, hp, Except.map]

/-- A signature engine that always fails, exercising the failure path. -/
def failing_sign : String → Unit → SignatureAlgorithm → Except Error (List Nat) :=
  fun _ _ _ => Except.error Error.signingError

/-- A signature engine returning fixed bytes, exercising the success path. -/
def ok_sign : String → Unit → SignatureAlgorithm → Except Error (List Nat) :=
  fun _ _ _ => Except.ok [1, 2, 3]

theorem failed_signing_leaves_request_unchanged_witness :
    failing_sign (signing_string_of (as_http_signature_headers min_test_request)) ()
      (SignatureAlgorithm.RSA ShaSize.twoFiftySix) = Except.error Error.signingError ∧
    (with_authorization_header failing_sign min_test_request "rsa-key-1" ()
        (SignatureAlgorithm.RSA ShaSize.twoFiftySix) =
      (min_test_request, some Error.signingError) ∧
    with_signature_header failing_sign min_test_request "rsa-key-1" ()
        (SignatureAlgorithm.RSA ShaSize.twoFiftySix) =
      (min_test_request, some Error.signingError)) :=
  ⟨rfl, failed_signing_leaves_request_unchanged failing_sign min_test_request "rsa-key-1" ()
    (SignatureAlgorithm.RSA ShaSize.twoFiftySix) Error.signingError rfl⟩

/-- C7: a successful attachment changes nothing but the target header —
Authorization for `with_authorization_header`, Signature for
`with_signature_header`, replacing any existing header of that name — while
method, path, query, body and every other header are unchanged. -/
theorem successful_signing_frame
    (sign : String → K → SignatureAlgorithm → Except Error (List Nat))
    (req : HyperRequest) (key_id : String) (key : K) (algorithm : SignatureAlgorithm) :
    (∀ reqA, with_authorization_header sign req key_id key algorithm = (reqA, none) →
      reqA.method = req.method ∧ reqA.path = req.path ∧ reqA.query = req.query ∧
      reqA.body = req.body ∧
      ∃ v, authorization_header sign req key_id key algorithm = Except.ok v ∧
        reqA.headers = req.headers.set_raw "Authorization" v ∧
        reqA.headers.get_raw "Authorization" = some [v] ∧
        ∀ n, toLowercase n ≠ toLowercase "Authorization" →
          reqA.headers.get_raw n = req.headers.get_raw n) ∧
    (∀ reqS, with_signature_header sign req key_id key algorithm = (reqS, none) →
      reqS.method = req.method ∧ reqS.path = req.path ∧ reqS.query = req.query ∧
      reqS.body = req.body ∧
      ∃ v, signature_header sign req key_id key algorithm = Except.ok v ∧
        reqS.headers = req.headers.set_raw "Signature" v ∧
        reqS.headers.get_raw "Signature" = some [v] ∧
        ∀ n, toLowercase n ≠ toLowercase "Signature" →
          reqS.headers.get_raw n = req.headers.get_raw n) := by
  constructor
  · intro reqA hA
    rcases hok : authorization_header sign req key_id key algorithm with e | v
    · simp only [with_authorization_header, hok] at hA
      exact absurd (congrArg Prod.snd hA) (by simp)
    · simp only [with_authorization_header, hok] at hA
      have hreq : reqA = { req with headers := req.headers.set_raw "Authorization" v } :=
        (congrArg Prod.fst hA).symm
      subst hreq
      refine ⟨rfl, rfl, rfl, rfl, v, rfl, rfl, ?_, ?_⟩
      · exact getRaw_setRaw_same _ _ _ _ rfl
      · intro n hn
        exact getRaw_setRaw_other _ _ _ _ hn
  · intro reqS hS
    rcases hok : signature_header sign req key_id key algorithm with e | v
    · simp only [with_signature_header, hok] at hS
      exact absurd (congrArg Prod.snd hS) (by simp)
    · simp only [with_signature_header, hok] at hS
      have hreq : reqS = { req with headers := req.headers.set_raw "Signature" v } :=
        (congrArg Prod.fst hS).symm
      subst hreq
      refine ⟨rfl, rfl, rfl, rfl, v, rfl, rfl, ?_, ?_⟩
      · exact getRaw_setRaw_same _ _ _ _ rfl
      · intro n hn
        exact getRaw_setRaw_other _ _ _ _ hn

theorem successful_signing_frame_witness :
    with_authorization_header ok_sign min_test_request "rsa-key-1" ()
        (SignatureAlgorithm.RSA ShaSize.twoFiftySix) =
      ((with_authorization_header ok_sign min_test_request "rsa-key-1" ()
        (SignatureAlgorithm.RSA ShaSize.twoFiftySix)).1, none) ∧
    ((with_authorization_header ok_sign min_test_request "rsa-key-1" ()
      (SignatureAlgorithm.RSA ShaSize.twoFiftySix)).1).method = min_test_request.method :=
  ⟨rfl, ((successful_signing_frame ok_sign min_test_request "rsa-key-1" ()
    (SignatureAlgorithm.RSA ShaSize.twoFiftySix)).1 _ rfl).1⟩

/-- C8: the signing pipeline — `as_http_signature` followed by the signature
computation and encoding — is a pure function of the request, key id, key and
algorithm: equal inputs produce byte-identical output. -/
theorem signing_pipeline_deterministic
    (sign : String → K → SignatureAlgorithm → Except Error (List Nat))
    (req₁ req₂ : HyperRequest) (kid₁ kid₂ : String) (key₁ key₂ : K)
    (alg₁ alg₂ : SignatureAlgorithm)
    (hr : req₁ = req₂) (hk : kid₁ = kid₂) (hkey : key₁ = key₂) (ha : alg₁ = alg₂) :
    produce_signature sign req₁ kid₁ key₁ alg₁ = produce_signature sign req₂ kid₂ key₂ alg₂ ∧
    signature_header sign req₁ kid₁ key₁ alg₁ = signature_header sign req₂ kid₂ key₂ alg₂ := by
  subst hr
  subst hk
  subst hkey
  subst ha
  exact ⟨rfl, rfl⟩

theorem signing_pipeline_deterministic_witness :
    produce_signature ok_sign min_test_request "rsa-key-1" ()
        (SignatureAlgorithm.RSA ShaSize.twoFiftySix) =
      produce_signature ok_sign min_test_request "rsa-key-1" ()
        (SignatureAlgorithm.RSA ShaSize.twoFiftySix) ∧
    signature_header ok_sign min_test_request "rsa-key-1" ()
        (SignatureAlgorithm.RSA ShaSize.twoFiftySix) =
      signature_header ok_sign min_test_request "rsa-key-1" ()
        (SignatureAlgorithm.RSA ShaSize.twoFiftySix) :=
  signing_pipeline_deterministic ok_sign min_test_request min_test_request "rsa-key-1"
    "rsa-key-1" () () (SignatureAlgorithm.RSA ShaSize.twoFiftySix)
    (SignatureAlgorithm.RSA ShaSize.twoFiftySix) rfl rfl rfl rfl

/-- C10: on success `with_authorization_header` always writes under the
Authorization header and `with_signature_header` always under the literal
"Signature" header; the target name is fixed by the adapter, not chosen by
the caller. -/
theorem signature_header_name_fixed
    (sign : String → K → SignatureAlgorithm → Except Error (List Nat))
    (req : HyperRequest) (key_id : String) (key : K) (algorithm : SignatureAlgorithm) :
    (∀ reqA, with_authorization_header sign req key_id key algorithm = (reqA, none) →
      ∃ v, authorization_header sign req key_id key algorithm = Except.ok v ∧
        reqA.headers = req.headers.set_raw "Authorization" v ∧
        reqA.headers.get_raw "Authorization" = some [v]) ∧
    (∀ reqS, with_signature_header sign req key_id key algorithm = (reqS, none) →
      ∃ v, signature_header sign req key_id key algorithm = Except.ok v ∧
        reqS.headers = req.headers.set_raw "Signature" v ∧
        reqS.headers.get_raw "Signature" = some [v]) := by
  constructor
  · intro reqA hA
    rcases hok : authorization_header sign req key_id key algorithm with e | v
    · simp only [with_authorization_header, hok] at hA
      exact absurd (congrArg Prod.snd hA) (by simp)
    · simp only [with_authorization_header, hok] at hA
      have hreq : reqA = { req with headers := req.headers.set_raw "Authorization" v } :=
        (congrArg Prod.fst hA).symm
      subst hreq
      exact ⟨v, rfl, rfl, getRaw_setRaw_same _ _ _ _ rfl⟩
  · intro reqS hS
    rcases hok : signature_header sign req key_id key algorithm with e | v
    · simp only [with_signature_header, hok] at hS
      exact absurd (congrArg Prod.snd hS) (by simp)
    · simp only [with_signature_header, hok] at hS
      have hreq : reqS = { req with headers := req.headers.set_raw "Signature" v } :=
        (congrArg Prod.fst hS).symm
      subst hreq
      exact ⟨v, rfl, rfl, getRaw_setRaw_same _ _ _ _ rfl⟩

theorem signature_header_name_fixed_witness :
    with_signature_header ok_sign min_test_request "rsa-key-1" ()
        (SignatureAlgorithm.RSA ShaSize.twoFiftySix) =
      ((with_signature_header ok_sign min_test_request "rsa-key-1" ()
        (SignatureAlgorithm.RSA ShaSize.twoFiftySix)).1, none) ∧
    ∃ v, signature_header ok_sign min_test_request "rsa-key-1" ()
        (SignatureAlgorithm.RSA ShaSize.twoFiftySix) = Except.ok v ∧
      ((with_signature_header ok_sign min_test_request "rsa-key-1" ()
        (SignatureAlgorithm.RSA ShaSize.twoFiftySix)).1).headers =
        min_test_request.headers.set_raw "Signature" v ∧
      ((with_signature_header ok_sign min_test_request "rsa-key-1" ()
        (SignatureAlgorithm.RSA ShaSize.twoFiftySix)).1).headers.get_raw "Signature" =
        some [v] :=
  ⟨rfl, (signature_header_name_fixed ok_sign min_test_request "rsa-key-1" ()
    (SignatureAlgorithm.RSA ShaSize.twoFiftySix)).2 _ rfl⟩
